import Mathlib

/-!
Verification development for the gitdive commit-history extraction and
diff-analysis pipeline.  Python strings are modelled as `List Char`
(ASCII semantics for whitespace and word characters), Python sets as
duplicate-free insertion lists, and fallible operations as `Except`.
Each definition is a direct translation of the corresponding function in
`src/gitdive/core/`.
-/

set_option maxRecDepth 10000

abbrev Str := List Char

/-- Python whitespace predicate (`\s`, `str.strip`, `str.split`) restricted
to the ASCII whitespace characters. -/
def isPySpace (c : Char) : Bool :=
  c = ' ' || c = '\t' || c = '\n' || c = '\r' || c = '\x0b' || c = '\x0c'

/-- Python `\w` word-character predicate (ASCII letters, digits, underscore). -/
def isWordChar (c : Char) : Bool :=
  c.isAlphanum || c = '_'

/-- Python `str.strip()`: remove leading and trailing whitespace. -/
def pyStrip (s : Str) : Str :=
  ((s.dropWhile isPySpace).reverse.dropWhile isPySpace).reverse

/-- Python `str.split(sep)` for a one-character separator: keeps empty
pieces, `"".split(sep) = [""]`. -/
def splitOnChar (sep : Char) : Str → List Str
  | [] => [[]]
  | c :: cs =>
    if c = sep then [] :: splitOnChar sep cs
    else
      match splitOnChar sep cs with
      | [] => [[c]]
      | l :: ls => (c :: l) :: ls

/-- Python `str.split('\n')`. -/
def splitLines (s : Str) : List Str := splitOnChar '\n' s

/-- Python `'\n'.join(lines)`. -/
def joinLines : List Str → Str
  | [] => []
  | [l] => l
  | l :: l' :: ls => l ++ '\n' :: joinLines (l' :: ls)

/-- Python `str.split(sep, maxsplit)` for a one-character separator. -/
def splitOnCharLimit (sep : Char) : Nat → Str → List Str
  | 0, s => [s]
  | n + 1, s =>
    let pre := s.takeWhile (fun c => c ≠ sep)
    match s.dropWhile (fun c => c ≠ sep) with
    | [] => [pre]
    | _ :: tail => pre :: splitOnCharLimit sep n tail

/-- Helper for `pySplitWs`: `acc` is the current word, reversed. -/
def pySplitWsAux : Str → Str → List Str
  | acc, [] => if acc = [] then [] else [acc.reverse]
  | acc, c :: cs =>
    if isPySpace c then
      if acc = [] then pySplitWsAux [] cs else acc.reverse :: pySplitWsAux [] cs
    else pySplitWsAux (c :: acc) cs

/-- Python `str.split()` with no argument: split on whitespace runs,
discarding empty pieces. -/
def pySplitWs (s : Str) : List Str := pySplitWsAux [] s

/-- Python `needle in haystack` substring test. -/
def hasSub (needle : Str) : Str → Bool
  | [] => needle.isEmpty
  | c :: rest => needle.isPrefixOf (c :: rest) || hasSub needle rest

/-- Python `s.replace(pat, '', 1)`: delete the first occurrence of `pat`. -/
def removeFirstOcc (pat : Str) : Str → Str
  | [] => []
  | c :: cs =>
    if pat.isPrefixOf (c :: cs) then (c :: cs).drop pat.length
    else c :: removeFirstOcc pat cs

/-- `constants.FILE_SIZE_LIMIT`. -/
def FILE_SIZE_LIMIT : Nat := 10000

/-- `constants.IGNORE_FILE_PATTERNS`. -/
def IGNORE_FILE_PATTERNS : List Str :=
  [".git/".data, "__pycache__/".data, "node_modules/".data,
   ".lock".data, ".png".data, ".jpg".data, ".pdf".data,
   ".zip".data, ".exe".data, ".dll".data]

/-- `GitDiffParser._should_include_file` (identical to
`CommitProcessor._should_include_file`): a non-empty path is included iff
no ignore pattern occurs in it as a substring. -/
def shouldIncludeFile (filePath : Str) : Bool :=
  if filePath = [] then false
  else IGNORE_FILE_PATTERNS.all (fun pat => !hasSub pat filePath)

/-- `models.StructuralChanges`; the Python sets are modelled as
duplicate-free lists, queried only through membership. -/
structure StructuralChanges where
  added_functions : List Str
  removed_functions : List Str
  modified_functions : List Str
  added_classes : List Str
  removed_classes : List Str
  modified_files : List Str
  lines_added : Nat
  lines_removed : Nat
deriving DecidableEq

/-- Python `set.add`. -/
def insertSet (x : Str) (l : List Str) : List Str :=
  if x ∈ l then l else l ++ [x]

/-- Python `set.discard`. -/
def discardSet (x : Str) (l : List Str) : List Str :=
  l.filter (fun y => y ≠ x)

/-! ### Regex pattern matchers

Each Python regex used by `GitDiffParser` is simple enough to admit a
deterministic maximal-munch translation; the translations below follow
the patterns in `GitDiffParser.__init__` token by token. -/

/-- `\s*`. -/
def dropSpaces (s : Str) : Str := s.dropWhile isPySpace

/-- `\s+`: at least one whitespace character, then maximal munch. -/
def spacesPlus : Str → Option Str
  | [] => none
  | c :: rest => if isPySpace c then some (rest.dropWhile isPySpace) else none

/-- `(\w+)`: a non-empty capture of word characters, maximal munch. -/
def wordPlus (s : Str) : Option (Str × Str) :=
  let w := s.takeWhile isWordChar
  if w = [] then none else some (w, s.dropWhile isWordChar)

/-- A literal token of the pattern. -/
def litThen (lit : Str) (s : Str) : Option Str :=
  if lit.isPrefixOf s then some (s.drop lit.length) else none

/-- `^[+-]`: the diff polarity marker. -/
def markerRest : Str → Option Str
  | [] => none
  | c :: rest => if c = '+' || c = '-' then some rest else none

/-- `^[+-]\s*KW\s+(\w+)\s*\(` for `KW` in {`def`, `function`}
(function patterns 1 and 2). -/
def funPatDefKw (kw : Str) (line : Str) : Option Str :=
  match markerRest line with
  | none => none
  | some r0 =>
    match litThen kw (dropSpaces r0) with
    | none => none
    | some r1 =>
      match spacesPlus r1 with
      | none => none
      | some r2 =>
        match wordPlus r2 with
        | none => none
        | some (name, r3) =>
          match dropSpaces r3 with
          | '(' :: _ => some name
          | _ => none

/-- `^[+-]\s*(\w+)\s*\([^)]*\)\s*{` (function pattern 3, C/Java style). -/
def funPatCStyle (line : Str) : Option Str :=
  match markerRest line with
  | none => none
  | some r0 =>
    match wordPlus (dropSpaces r0) with
    | none => none
    | some (name, r1) =>
      match dropSpaces r1 with
      | '(' :: r2 =>
        match r2.dropWhile (fun c => c ≠ ')') with
        | ')' :: r3 =>
          match dropSpaces r3 with
          | c :: _ => if c = '\x7b' then some name else none
          | [] => none
        | _ => none
      | _ => none

/-- `^[+-]\s*KW\s+\w+\s+(\w+)\s*\(` for `KW` in {`public`, `private`}
(function patterns 4 and 5, Java methods). -/
def funPatAccessKw (kw : Str) (line : Str) : Option Str :=
  match markerRest line with
  | none => none
  | some r0 =>
    match litThen kw (dropSpaces r0) with
    | none => none
    | some r1 =>
      match spacesPlus r1 with
      | none => none
      | some r2 =>
        match wordPlus r2 with
        | none => none
        | some (_, r3) =>
          match spacesPlus r3 with
          | none => none
          | some r4 =>
            match wordPlus r4 with
            | none => none
            | some (name, r5) =>
              match dropSpaces r5 with
              | '(' :: _ => some name
              | _ => none

/-- `^[+-]\s*class\s+(\w+)(?:\s*\([^)]*\))?\s*:` (class pattern 1, Python).
The optional parenthesised base list is attempted first; if it fails, or
is absent, the colon is required directly (the regex cannot succeed via
backtracking once the group matched, since the text then starts with an
opening parenthesis where a colon is required). -/
def classPatPython (line : Str) : Option Str :=
  match markerRest line with
  | none => none
  | some r0 =>
    match litThen ("class".data) (dropSpaces r0) with
    | none => none
    | some r1 =>
      match spacesPlus r1 with
      | none => none
      | some r2 =>
        match wordPlus r2 with
        | none => none
        | some (name, r3) =>
          let afterOpt : Option Str :=
            match dropSpaces r3 with
            | '(' :: r4 =>
              match r4.dropWhile (fun c => c ≠ ')') with
              | ')' :: r5 => some r5
              | _ => none
            | _ => none
          match afterOpt with
          | some r6 =>
            match dropSpaces r6 with
            | ':' :: _ => some name
            | _ => none
          | none =>
            match dropSpaces r3 with
            | ':' :: _ => some name
            | _ => none

/-- `^[+-]\s*class\s+(\w+)\s*{` (class pattern 2, C++/Java). -/
def classPatBrace (line : Str) : Option Str :=
  match markerRest line with
  | none => none
  | some r0 =>
    match litThen ("class".data) (dropSpaces r0) with
    | none => none
    | some r1 =>
      match spacesPlus r1 with
      | none => none
      | some r2 =>
        match wordPlus r2 with
        | none => none
        | some (name, r3) =>
          match dropSpaces r3 with
          | c :: _ => if c = '\x7b' then some name else none
          | [] => none

/-- `^[+-]\s*public\s+class\s+(\w+)` (class pattern 3, Java public class). -/
def classPatJavaPublic (line : Str) : Option Str :=
  match markerRest line with
  | none => none
  | some r0 =>
    match litThen ("public".data) (dropSpaces r0) with
    | none => none
    | some r1 =>
      match spacesPlus r1 with
      | none => none
      | some r2 =>
        match litThen ("class".data) r2 with
        | none => none
        | some r3 =>
          match spacesPlus r3 with
          | none => none
          | some r4 =>
            match wordPlus r4 with
            | none => none
            | some (name, _) => some name

/-- The first function pattern that matches wins (the `break` in
`GitDiffParser._parse_functions`). -/
def firstFunctionMatch (line : Str) : Option Str :=
  match funPatDefKw ("def".data) line with
  | some n => some n
  | none =>
    match funPatDefKw ("function".data) line with
    | some n => some n
    | none =>
      match funPatCStyle line with
      | some n => some n
      | none =>
        match funPatAccessKw ("public".data) line with
        | some n => some n
        | none => funPatAccessKw ("private".data) line

/-- The first class pattern that matches wins (the `break` in
`GitDiffParser._parse_classes`). -/
def firstClassMatch (line : Str) : Option Str :=
  match classPatPython line with
  | some n => some n
  | none =>
    match classPatBrace line with
    | some n => some n
    | none => classPatJavaPublic line

/-! ### The file-header regex `^diff --git a/(.+?) b/(.+?)$` -/

/-- Scan for the earliest ` b/` separator whose right-hand remainder is
non-empty; the non-greedy first group extends past separators with an
empty remainder exactly as the backtracking regex engine does. -/
def scanBSep : Str → Option Str
  | [] => none
  | c :: rest =>
    if (' ' :: 'b' :: '/' :: []).isPrefixOf (c :: rest) then
      let g2 := (c :: rest).drop 3
      if g2 = [] then scanBSep rest else some g2
    else scanBSep rest

/-- `re.match(r'^diff --git a/(.+?) b/(.+?)$', line)`, returning the
second (authoritative) path group. Group 1 is non-empty, so the scan for
the separator starts after the first character. -/
def matchFileHeader (line : Str) : Option Str :=
  match litThen ("diff --git a/".data) line with
  | none => none
  | some rest =>
    match rest with
    | [] => none
    | _ :: tail => scanBSep tail

/-! ### `GitDiffParser._parse_diff_safely` -/

/-- `+` line counted by `lines_added`: starts with `+` but not `+++`. -/
def isPlusLine (line : Str) : Bool :=
  ("+".data).isPrefixOf line && !("+++".data).isPrefixOf line

/-- `-` line counted by `lines_removed`: starts with `-` but not `---`. -/
def isMinusLine (line : Str) : Bool :=
  ("-".data).isPrefixOf line && !("---".data).isPrefixOf line

/-- `GitDiffParser._parse_functions`: mutate the three function-name sets
for one line.  On a `+` line the name is added; on a `-` line it is
recorded as removed, and if it is currently in the added set it is
promoted to modified and discarded from both added and removed. -/
def funSetsStep (line : Str) (added removed modified : List Str) :
    List Str × List Str × List Str :=
  match firstFunctionMatch line with
  | none => (added, removed, modified)
  | some name =>
    if ("+".data).isPrefixOf line then
      (insertSet name added, removed, modified)
    else if ("-".data).isPrefixOf line then
      let removed' := insertSet name removed
      if name ∈ added then
        (discardSet name added, discardSet name removed', insertSet name modified)
      else (added, removed', modified)
    else (added, removed, modified)

/-- `GitDiffParser._parse_classes`: class names are added to the added or
removed set according to polarity; there is no promotion to a modified
set. -/
def classSetsStep (line : Str) (added removed : List Str) :
    List Str × List Str :=
  match firstClassMatch line with
  | none => (added, removed)
  | some name =>
    if ("+".data).isPrefixOf line then (insertSet name added, removed)
    else if ("-".data).isPrefixOf line then (added, insertSet name removed)
    else (added, removed)

/-- The loop state of `GitDiffParser._parse_diff_safely`. -/
structure ParseState where
  addedFunctions : List Str
  removedFunctions : List Str
  modifiedFunctions : List Str
  addedClasses : List Str
  removedClasses : List Str
  modifiedFiles : List Str
  linesAdded : Nat
  linesRemoved : Nat
  currentFile : Option Str
  shouldInclude : Bool
deriving DecidableEq

def initState : ParseState :=
  ⟨[], [], [], [], [], [], 0, 0, none, false⟩

/-- One iteration of the loop in `GitDiffParser._parse_diff_safely`:
a file-header line updates the current file, the inclusion flag, and the
modified-files set; any other line is skipped unless the current file is
included, in which case the line counters and the structural sets are
updated.  The `+`/`-` counters reproduce the `if`/`elif` of the source
(a line cannot start with both markers). -/
def parseLine (st : ParseState) (line : Str) : ParseState :=
  match matchFileHeader line with
  | some path =>
    let inc := decide (path ≠ []) && shouldIncludeFile path
    { st with currentFile := some path
            , shouldInclude := inc
            , modifiedFiles :=
                if inc then insertSet path st.modifiedFiles else st.modifiedFiles }
  | none =>
    if st.shouldInclude then
      let fs := funSetsStep line st.addedFunctions st.removedFunctions st.modifiedFunctions
      let cs := classSetsStep line st.addedClasses st.removedClasses
      { st with
          linesAdded := st.linesAdded + (if isPlusLine line then 1 else 0)
        , linesRemoved := st.linesRemoved +
            (if isPlusLine line then 0 else if isMinusLine line then 1 else 0)
        , addedFunctions := fs.1
        , removedFunctions := fs.2.1
        , modifiedFunctions := fs.2.2
        , addedClasses := cs.1
        , removedClasses := cs.2 }
    else st

def stateToChanges (st : ParseState) : StructuralChanges :=
  ⟨st.addedFunctions, st.removedFunctions, st.modifiedFunctions,
   st.addedClasses, st.removedClasses, st.modifiedFiles,
   st.linesAdded, st.linesRemoved⟩

def parseLinesList (lines : List Str) : StructuralChanges :=
  stateToChanges (lines.foldl parseLine initState)

/-- `GitDiffParser._parse_diff_safely`. -/
def parseDiffSafely (d : Str) : StructuralChanges :=
  parseLinesList (splitLines d)

/-- `GitDiffParser._empty_changes`. -/
def emptyChanges : StructuralChanges :=
  ⟨[], [], [], [], [], [], 0, 0⟩

/-- `GitDiffParser.parse_structural_changes`: empty or whitespace-only
input short-circuits to the empty change set, otherwise the full pass
runs (the Python `try`/`except` around it is modelled by `fallbackParse`
below, which the total Lean translation never needs to invoke). -/
def parseStructuralChanges (d : Str) : StructuralChanges :=
  if pyStrip d = [] then emptyChanges else parseDiffSafely d

/-! ### `GitDiffParser._fallback_parse` -/

/-- The header-path computation of the fallback pass:
`line.split()[3].replace('b/', '', 1)` guarded by a length check. -/
def fallbackHeaderPath (line : Str) : Option Str :=
  let parts := pySplitWs line
  if 4 ≤ parts.length then some (removeFirstOcc ("b/".data) (parts.getD 3 []))
  else none

/-- The loop state of `GitDiffParser._fallback_parse`. -/
structure FallbackState where
  modifiedFiles : List Str
  linesAdded : Nat
  linesRemoved : Nat
  currentFile : Option Str
  shouldInclude : Bool
deriving DecidableEq

/-- One iteration of the loop in `GitDiffParser._fallback_parse`. -/
def fallbackStep (st : FallbackState) (line : Str) : FallbackState :=
  if ("diff --git".data).isPrefixOf line then
    match fallbackHeaderPath line with
    | some fp =>
      let inc := shouldIncludeFile fp
      { st with currentFile := some fp
              , shouldInclude := inc
              , modifiedFiles :=
                  if inc then insertSet fp st.modifiedFiles else st.modifiedFiles }
    | none => st
  else if st.shouldInclude then
    { st with
        linesAdded := st.linesAdded + (if isPlusLine line then 1 else 0)
      , linesRemoved := st.linesRemoved +
          (if isPlusLine line then 0 else if isMinusLine line then 1 else 0) }
  else st

/-- `GitDiffParser._fallback_parse`. -/
def fallbackParse (d : Str) : StructuralChanges :=
  let st := (splitLines d).foldl fallbackStep ⟨[], 0, 0, none, false⟩
  ⟨[], [], [], [], [], st.modifiedFiles, st.linesAdded, st.linesRemoved⟩

/-! ### `CommitProcessor` (`processor.py`) -/

/-- The header-path computation of
`CommitProcessor._extract_regular_commit_content`: split the header on
single spaces, take the fourth token, and strip a leading `b/` or `a/`
prefix.  Returns `none` when the header has fewer than four tokens (the
current file is then left unchanged). -/
def procHeaderPath (line : Str) : Option Str :=
  let parts := splitOnChar ' ' line
  if 4 ≤ parts.length then
    let fw := parts.getD 3 []
    some (if ("b/".data).isPrefixOf fw then fw.drop 2
          else if ("a/".data).isPrefixOf fw then fw.drop 2
          else fw)
  else none

/-- The current-file update on a `diff --git` line. -/
def procHeaderUpdate (cf : Option Str) (line : Str) : Option Str :=
  match procHeaderPath line with
  | some fp => some fp
  | none => cf

/-- Python truthiness of `current_file and self._should_include_file(current_file)`. -/
def cfIncluded : Option Str → Bool
  | none => false
  | some f => shouldIncludeFile f

/-- The loop of `CommitProcessor._extract_regular_commit_content`:
collect, in order, the `+` lines (but not `+++`) of included files with
the leading `+` stripped. -/
def regCollect (cf : Option Str) : List Str → List Str
  | [] => []
  | line :: rest =>
    if ("diff --git".data).isPrefixOf line then
      regCollect (procHeaderUpdate cf line) rest
    else if cfIncluded cf && isPlusLine line then
      line.drop 1 :: regCollect cf rest
    else regCollect cf rest

/-- `CommitProcessor._extract_regular_commit_content`, as a function of
the diff text returned by the backend. -/
def extractRegularCommitContent (d : Str) : Str :=
  if d = [] then [] else joinLines (regCollect none (splitLines d))

/-- The accumulation loop of
`CommitProcessor._extract_initial_commit_content`: for each included
file with non-empty content-at-commit, truncate the content to
`FILE_SIZE_LIMIT` characters and append its lines. -/
def initialLines (contentAt : Str → Str) : List Str → List Str
  | [] => []
  | fp :: rest =>
    if shouldIncludeFile fp then
      let fc := contentAt fp
      if fc = [] then initialLines contentAt rest
      else splitLines (fc.take FILE_SIZE_LIMIT) ++ initialLines contentAt rest
    else initialLines contentAt rest

/-- `CommitProcessor._extract_initial_commit_content`, as a function of
the changed-file list and the content-at-commit oracle
(`GitCommand.get_file_content_at_commit`, which returns the empty string
for unreadable files). -/
def extractInitialCommitContent (files : List Str) (contentAt : Str → Str) : Str :=
  joinLines (initialLines contentAt files)

/-- One commit's metadata as parsed by `GitCommand.get_commits`. -/
structure CommitInfo where
  hash : Str
  summary : Str
  author : Str
  date : Str
deriving DecidableEq

/-- `models.CommitData`. -/
structure CommitData where
  hash : Str
  summary : Str
  author : Str
  date : Str
  content : Str
deriving DecidableEq

/-- `CommitProcessor._extract_commit_content`: the per-commit extraction
(root-commit or regular, modelled as an oracle that may fail) with its
`try`/`except` that converts any failure into empty content. -/
def extractCommitContent (extract : Str → Except Unit Str) (h : Str) : Str :=
  match extract h with
  | .ok c => c
  | .error _ => []

/-- The loop of `CommitProcessor.extract_commits`: one `CommitData` per
commit whose extracted content is not empty or whitespace-only, in
listing order. -/
def extractCommits (extract : Str → Except Unit Str) :
    List CommitInfo → List CommitData
  | [] => []
  | ci :: rest =>
    let content := extractCommitContent extract ci.hash
    if pyStrip content = [] then extractCommits extract rest
    else ⟨ci.hash, ci.summary, ci.author, ci.date, content⟩ ::
         extractCommits extract rest

/-! ### `GitCommand.get_commits` (`git_cli.py`) -/

/-- The two failure modes of `GitCommand.run`: a non-zero exit
(`subprocess.CalledProcessError`) or a missing `git` binary
(`FileNotFoundError`). -/
inductive GitError where
  | calledProcessError
  | fileNotFound
deriving DecidableEq

/-- One line of `git log` output: skip empty lines, split on `\x1F` with
`maxsplit=4`, and build a record only when exactly five parts result. -/
def parseCommitLine (line : Str) : Option CommitInfo :=
  if line = [] then none
  else
    match splitOnCharLimit '\x1F' 4 line with
    | [h, s, an, ae, dt] =>
      some ⟨h, s, an ++ " <".data ++ ae ++ ">".data, dt⟩
    | _ => none

/-- The parsing loop of `GitCommand.get_commits` over the raw `git log`
output. -/
def getCommitsFromOutput (output : Str) : List CommitInfo :=
  (splitLines (pyStrip output)).filterMap parseCommitLine

/-- `GitCommand.get_commits`: a `CalledProcessError` from the backend is
caught and yields the empty list; a `FileNotFoundError` raised by
`GitCommand.run` is not caught and propagates. -/
def getCommits (run : Except GitError Str) : Except GitError (List CommitInfo) :=
  match run with
  | .ok out => .ok (getCommitsFromOutput out)
  | .error .calledProcessError => .ok []
  | .error .fileNotFound => .error .fileNotFound

/-! ### Specification-side definitions

These definitions follow the words of the specification (file spans,
included lines, line counts) rather than the code's single-pass loops;
the refinement theorems below compare them with the translations
above. -/

/-- Specification-side span tracking: the non-header lines of the diff
that lie inside an included file's span, in order.  The flag argument is
the inclusion state of the current span (initially false: lines before
any file header are outside every span). -/
def specIncludedLines : Bool → List Str → List Str
  | _, [] => []
  | flag, l :: ls =>
    match matchFileHeader l with
    | some p => specIncludedLines (shouldIncludeFile p) ls
    | none => (if flag then [l] else []) ++ specIncludedLines flag ls

/-- Specification-side count: lines inside an included file's span that
start with a single `+` (excluding the `+++` marker). -/
def specLinesAdded (d : Str) : Nat :=
  ((specIncludedLines false (splitLines d)).filter isPlusLine).length

/-- Specification-side count: lines inside an included file's span that
start with a single `-` (excluding the `---` marker). -/
def specLinesRemoved (d : Str) : Nat :=
  ((specIncludedLines false (splitLines d)).filter isMinusLine).length

/-- Keep the file-header lines and the lines inside included spans; drop
every line outside an included span (including all lines before the
first header). -/
def keepIncludedLines : Bool → List Str → List Str
  | _, [] => []
  | flag, l :: ls =>
    match matchFileHeader l with
    | some p => l :: keepIncludedLines (shouldIncludeFile p) ls
    | none => (if flag then [l] else []) ++ keepIncludedLines flag ls

/-- Specification-side span tracking for the processor's hunk
extraction, using the processor's own header rule: the non-header lines
lying inside an included file's span, in order. -/
def procSpanLines : Option Str → List Str → List Str
  | _, [] => []
  | cf, l :: ls =>
    if ("diff --git".data).isPrefixOf l then
      procSpanLines (procHeaderUpdate cf l) ls
    else (if cfIncluded cf then [l] else []) ++ procSpanLines cf ls

/-- A well-formed `diff --git` header whose two paths are equal,
non-empty and whitespace-free: `diff --git a/P b/P`. -/
def cleanHeader (line : Str) : Bool :=
  match litThen ("diff --git a/".data) line with
  | none => false
  | some rest =>
    let p := rest.takeWhile (fun c => !isPySpace c)
    decide (p ≠ []) && decide (rest = p ++ (' ' :: 'b' :: '/' :: p))

/-- Every `diff --git` line of the diff is a clean header. -/
def cleanHeadersOnly (d : Str) : Bool :=
  (splitLines d).all fun l => !(("diff --git".data).isPrefixOf l) || cleanHeader l

/-! ## Lemmas: string machinery -/

theorem splitOnChar_ne_nil (sep : Char) (s : Str) : splitOnChar sep s ≠ [] := by
  cases s with
  | nil => simp [splitOnChar]
  | cons c cs =>
    simp only [splitOnChar]
    split
    · simp
    · split <;> simp

theorem joinLines_cons_cons (l l' : Str) (ls : List Str) :
    joinLines (l :: l' :: ls) = l ++ '\n' :: joinLines (l' :: ls) := rfl

theorem joinLines_splitOnChar (s : Str) :
    joinLines (splitOnChar '\n' s) = s := by
  induction s with
  | nil => rfl
  | cons c cs ih =>
    simp only [splitOnChar]
    obtain ⟨l, ls, hl⟩ := List.exists_cons_of_ne_nil (splitOnChar_ne_nil '\n' cs)
    by_cases h : c = '\n'
    · subst h
      rw [if_pos rfl, hl, joinLines_cons_cons]
      rw [hl] at ih
      simp [ih]
    · rw [if_neg h, hl]
      rw [hl] at ih
      cases ls with
      | nil => simpa [joinLines] using ih
      | cons l2 ls2 =>
        rw [joinLines_cons_cons] at ih ⊢
        simp [← ih]

theorem joinLines_splitLines (s : Str) : joinLines (splitLines s) = s :=
  joinLines_splitOnChar s

theorem joinLines_append : ∀ (xs ys : List Str), xs ≠ [] → ys ≠ [] →
    joinLines (xs ++ ys) = joinLines xs ++ '\n' :: joinLines ys
  | [], _, hxs, _ => absurd rfl hxs
  | [x], ys, _, hys => by
    obtain ⟨y, ys', rfl⟩ := List.exists_cons_of_ne_nil hys
    simp [joinLines]
  | x :: x2 :: xs2, ys, _, hys => by
    have ih := joinLines_append (x2 :: xs2) ys (by simp) hys
    simp only [List.cons_append] at ih ⊢
    rw [joinLines_cons_cons, joinLines_cons_cons, ih]
    simp

theorem takeWhile_append_all {p : Char → Bool} :
    ∀ (A B : Str), (∀ c ∈ A, p c = true) →
      (A ++ B).takeWhile p = A ++ B.takeWhile p
  | [], _, _ => by simp
  | a :: A, B, h => by
    have ha : p a = true := h a (by simp)
    simp only [List.cons_append, List.takeWhile_cons, ha]
    simp [takeWhile_append_all A B (fun c hc => h c (by simp [hc]))]

theorem dropWhile_append_all {p : Char → Bool} :
    ∀ (A B : Str), (∀ c ∈ A, p c = true) →
      (A ++ B).dropWhile p = B.dropWhile p
  | [], _, _ => by simp
  | a :: A, B, h => by
    have ha : p a = true := h a (by simp)
    simp only [List.cons_append, List.dropWhile_cons, ha]
    simp [dropWhile_append_all A B (fun c hc => h c (by simp [hc]))]

theorem pyStrip_eq_nil_iff (s : Str) :
    pyStrip s = [] ↔ ∀ c ∈ s, isPySpace c = true := by
  unfold pyStrip
  rw [List.reverse_eq_nil_iff, List.dropWhile_eq_nil_iff]
  constructor
  · intro h c hc
    have hc' : c ∈ s.takeWhile isPySpace ∨ c ∈ s.dropWhile isPySpace := by
      have := List.takeWhile_append_dropWhile (p := isPySpace) (l := s)
      rw [← this] at hc
      exact List.mem_append.mp hc
    rcases hc' with h1 | h2
    · exact List.mem_takeWhile_imp h1
    · exact h c (by simp [h2])
  · intro h c hc
    exact h c (by
      have : c ∈ s.dropWhile isPySpace := by simpa using hc
      exact (List.dropWhile_sublist isPySpace).subset this)

theorem pyStrip_nil : pyStrip [] = [] := rfl

/-! ## Lemmas: set operations and the header regex -/

theorem mem_insertSet_iff (x y : Str) (l : List Str) :
    x ∈ insertSet y l ↔ x = y ∨ x ∈ l := by
  unfold insertSet
  split
  · constructor
    · exact Or.inr
    · rintro (rfl | hx)
      · assumption
      · exact hx
  · simp [or_comm]

theorem mem_insertSet_self (y : Str) (l : List Str) : y ∈ insertSet y l :=
  (mem_insertSet_iff y y l).mpr (Or.inl rfl)

theorem not_mem_discardSet_self (x : Str) (l : List Str) :
    x ∉ discardSet x l := by
  unfold discardSet
  intro h
  have := List.mem_filter.mp h
  simp at this

theorem scanBSep_ne_nil : ∀ (s : Str) (g2 : Str), scanBSep s = some g2 → g2 ≠ [] := by
  intro s
  induction s with
  | nil => intro g2 h; simp [scanBSep] at h
  | cons c rest ih =>
    intro g2 h
    simp only [scanBSep] at h
    split at h
    · split at h
      · exact ih g2 h
      · injection h with h'
        subst h'
        assumption
    · exact ih g2 h

theorem matchFileHeader_ne_nil (line p : Str) (h : matchFileHeader line = some p) :
    p ≠ [] := by
  unfold matchFileHeader at h
  split at h
  · exact absurd h (by simp)
  · rename_i rest heq
    cases rest with
    | nil => exact absurd h (by simp)
    | cons c tail => exact scanBSep_ne_nil tail p h

theorem isPrefixOf_true_iff (l₁ l₂ : Str) :
    l₁.isPrefixOf l₂ = true ↔ l₁ <+: l₂ := by
  exact List.isPrefixOf_iff_prefix

theorem matchFileHeader_none_of_not_git (line : Str)
    (h : ("diff --git".data).isPrefixOf line = false) :
    matchFileHeader line = none := by
  unfold matchFileHeader litThen
  have hfull : ("diff --git a/".data).isPrefixOf line = false := by
    by_contra hc
    have h13 : ("diff --git a/".data).isPrefixOf line = true := by
      revert hc
      cases ("diff --git a/".data).isPrefixOf line <;> simp
    have hp13 := (isPrefixOf_true_iff _ _).mp h13
    have hp10 : ("diff --git".data) <+: ("diff --git a/".data) := by decide
    have := (isPrefixOf_true_iff ("diff --git".data) line).mpr (hp10.trans hp13)
    rw [h] at this
    exact absurd this (by simp)
  simp [hfull]

/-- The inclusion flag computed from a header path equals the bare filter
result: the non-emptiness conjunct is redundant. -/
theorem inc_flag_eq (p : Str) :
    (decide (p ≠ []) && shouldIncludeFile p) = shouldIncludeFile p := by
  by_cases h : p = []
  · subst h; simp [shouldIncludeFile]
  · simp [h]

/-! ## Lemmas: components of `parseLine` -/

theorem parseLine_header (st : ParseState) (line p : Str)
    (h : matchFileHeader line = some p) :
    parseLine st line =
      { st with currentFile := some p
              , shouldInclude := shouldIncludeFile p
              , modifiedFiles :=
                  if shouldIncludeFile p then insertSet p st.modifiedFiles
                  else st.modifiedFiles } := by
  unfold parseLine
  rw [h]
  have hne : p ≠ [] := matchFileHeader_ne_nil line p h
  simp [hne]

theorem parseLine_content (st : ParseState) (line : Str)
    (h : matchFileHeader line = none) :
    (parseLine st line).linesAdded =
        st.linesAdded + (if st.shouldInclude && isPlusLine line then 1 else 0) ∧
    (parseLine st line).linesRemoved =
        st.linesRemoved +
          (if st.shouldInclude && (!isPlusLine line && isMinusLine line) then 1 else 0) ∧
    (parseLine st line).shouldInclude = st.shouldInclude ∧
    (parseLine st line).modifiedFiles = st.modifiedFiles ∧
    (parseLine st line).currentFile = st.currentFile := by
  unfold parseLine
  rw [h]
  by_cases hinc : st.shouldInclude = true
  · simp only [hinc, if_pos rfl, Bool.true_and]
    refine ⟨rfl, ?_, rfl, rfl, rfl⟩
    by_cases hp : isPlusLine line = true
    · simp [hp]
    · simp only [Bool.not_eq_true] at hp
      simp [hp]
  · simp only [Bool.not_eq_true] at hinc
    simp [hinc]

theorem parseLine_skip (st : ParseState) (line : Str)
    (h : matchFileHeader line = none) (hinc : st.shouldInclude = false) :
    parseLine st line = st := by
  unfold parseLine
  rw [h]
  simp [hinc]

/-! ## Lemmas: line counting (claim C2 machinery) -/

theorem plus_data_eq : "+".data = ['+'] := rfl

theorem minus_data_eq : "-".data = ['-'] := rfl

theorem plus_minus_exclusive (l : Str) (h : isPlusLine l = true) :
    isMinusLine l = false := by
  cases l with
  | nil => simp [isPlusLine, plus_data_eq, List.isPrefixOf] at h
  | cons c rest =>
    simp only [isPlusLine, plus_data_eq, Bool.and_eq_true] at h
    have h1 := h.1
    simp only [List.isPrefixOf, List.isPrefixOf_nil_left, Bool.and_true, beq_iff_eq] at h1
    subst h1
    simp [isMinusLine, minus_data_eq, List.isPrefixOf]

theorem minus_count_eq (l : Str) :
    (if isPlusLine l then 0 else if isMinusLine l then 1 else 0) =
      (if isMinusLine l then 1 else 0) := by
  by_cases hp : isPlusLine l = true
  · simp [hp, plus_minus_exclusive l hp]
  · simp only [Bool.not_eq_true] at hp
    simp [hp]

theorem foldl_parseLine_counts : ∀ (lines : List Str) (st : ParseState),
    ((lines.foldl parseLine st).linesAdded =
        st.linesAdded +
          ((specIncludedLines st.shouldInclude lines).filter isPlusLine).length) ∧
    ((lines.foldl parseLine st).linesRemoved =
        st.linesRemoved +
          ((specIncludedLines st.shouldInclude lines).filter isMinusLine).length)
  | [], st => by simp [specIncludedLines]
  | l :: ls, st => by
    rcases h : matchFileHeader l with _ | p
    · have hc := parseLine_content st l h
      have ih := foldl_parseLine_counts ls (parseLine st l)
      rw [hc.2.2.1] at ih
      simp only [List.foldl_cons, specIncludedLines, h]
      by_cases hflag : st.shouldInclude = true
      · constructor
        · rw [ih.1, hc.1]
          simp only [hflag, if_pos rfl, Bool.true_and, List.singleton_append,
            List.filter_cons]
          by_cases hp : isPlusLine l = true
          · simp [hp]
            omega
          · simp only [Bool.not_eq_true] at hp
            simp [hp]
        · rw [ih.2, hc.2.1]
          simp only [hflag, if_pos rfl, Bool.true_and, List.singleton_append,
            List.filter_cons]
          rw [show (if (!isPlusLine l && isMinusLine l) = true then 1 else 0) =
                (if isMinusLine l then 1 else 0) from ?_]
          · by_cases hm : isMinusLine l = true
            · simp [hm]
              omega
            · simp only [Bool.not_eq_true] at hm
              simp [hm]
          · by_cases hp : isPlusLine l = true
            · simp [hp, plus_minus_exclusive l hp]
            · simp only [Bool.not_eq_true] at hp
              simp [hp]
      · simp only [Bool.not_eq_true] at hflag
        rw [ih.1, ih.2, hc.1, hc.2.1]
        simp [hflag]
    · have hh := parseLine_header st l p h
      have ih := foldl_parseLine_counts ls (parseLine st l)
      simp only [List.foldl_cons, specIncludedLines, h]
      rw [hh] at ih ⊢
      simpa using ih

theorem mem_splitOnChar_mem (sep : Char) :
    ∀ (s : Str) (l : Str), l ∈ splitOnChar sep s → ∀ c ∈ l, c ∈ s := by
  intro s
  induction s with
  | nil =>
    intro l hl c hc
    simp [splitOnChar] at hl
    subst hl
    simp at hc
  | cons a s' ih =>
    intro l hl c hc
    simp only [splitOnChar] at hl
    by_cases ha : a = sep
    · rw [if_pos ha] at hl
      rcases List.mem_cons.mp hl with rfl | hl'
      · simp at hc
      · exact List.mem_cons_of_mem a (ih l hl' c hc)
    · rw [if_neg ha] at hl
      rcases hsp : splitOnChar sep s' with _ | ⟨l0, ls⟩
      · exact absurd hsp (splitOnChar_ne_nil sep s')
      · rw [hsp] at hl
        rcases List.mem_cons.mp hl with rfl | hl'
        · rcases List.mem_cons.mp hc with rfl | hc'
          · simp
          · exact List.mem_cons_of_mem a
              (ih l0 (by rw [hsp]; simp) c hc')
        · exact List.mem_cons_of_mem a
            (ih l (by rw [hsp]; simp [hl']) c hc)

theorem matchFileHeader_none_of_space (l : Str)
    (h : ∀ c ∈ l, isPySpace c = true) : matchFileHeader l = none := by
  apply matchFileHeader_none_of_not_git
  cases l with
  | nil => rfl
  | cons c rest =>
    by_contra hne
    have htrue : ("diff --git".data).isPrefixOf (c :: rest) = true := by
      revert hne
      cases ("diff --git".data).isPrefixOf (c :: rest) <;> simp
    have hcd : 'd' = c := by
      rw [show "diff --git".data = 'd' :: "iff --git".data from rfl] at htrue
      simp only [List.isPrefixOf, Bool.and_eq_true, beq_iff_eq] at htrue
      exact htrue.1
    subst hcd
    exact absurd (h 'd' (by simp)) (by decide)

theorem specIncludedLines_nil_of_no_header :
    ∀ (lines : List Str), (∀ l ∈ lines, matchFileHeader l = none) →
      specIncludedLines false lines = [] := by
  intro lines
  induction lines with
  | nil => intro _; rfl
  | cons l ls ih =>
    intro h
    simp only [specIncludedLines, h l (by simp)]
    simpa using ih (fun l' hl' => h l' (by simp [hl']))

/-- C2: for every diff text, the `lines_added` returned by
`parse_structural_changes` equals the number of lines inside an included
file's span that start with `+` but not `+++`, and symmetrically
`lines_removed` counts the included-span lines starting with `-` but not
`---` (both counts computed by the specification-side span tracking
`specIncludedLines`). -/
theorem c2_line_counts (d : Str) :
    (parseStructuralChanges d).lines_added = specLinesAdded d ∧
    (parseStructuralChanges d).lines_removed = specLinesRemoved d := by
  unfold parseStructuralChanges
  by_cases hb : pyStrip d = []
  · rw [if_pos hb]
    have hsp := (pyStrip_eq_nil_iff d).mp hb
    have hlines : ∀ l ∈ splitLines d, matchFileHeader l = none := by
      intro l hl
      exact matchFileHeader_none_of_space l
        (fun c hc => hsp c (mem_splitOnChar_mem '\n' d l hl c hc))
    unfold specLinesAdded specLinesRemoved
    rw [specIncludedLines_nil_of_no_header _ hlines]
    simp [emptyChanges]
  · rw [if_neg hb]
    unfold parseDiffSafely parseLinesList stateToChanges specLinesAdded specLinesRemoved
    have := foldl_parseLine_counts (splitLines d) initState
    simpa [initState] using this

/-- C8: for every input string that is empty or consists only of
whitespace, `parse_structural_changes` returns (without error) a change
set with `lines_added = 0`, `lines_removed = 0`, and every name and file
collection empty. -/
theorem c8_blank_input (d : Str) (h : ∀ c ∈ d, isPySpace c = true) :
    (parseStructuralChanges d).lines_added = 0 ∧
    (parseStructuralChanges d).lines_removed = 0 ∧
    (parseStructuralChanges d).added_functions = [] ∧
    (parseStructuralChanges d).removed_functions = [] ∧
    (parseStructuralChanges d).modified_functions = [] ∧
    (parseStructuralChanges d).added_classes = [] ∧
    (parseStructuralChanges d).removed_classes = [] ∧
    (parseStructuralChanges d).modified_files = [] := by
  unfold parseStructuralChanges
  rw [if_pos ((pyStrip_eq_nil_iff d).mpr h)]
  exact ⟨rfl, rfl, rfl, rfl, rfl, rfl, rfl, rfl⟩

/-- Witness for C8 at the whitespace-only input `" \t\n "`. -/
theorem c8_blank_input_witness :
    (parseStructuralChanges (" \t\n ".data)).lines_added = 0 ∧
    (parseStructuralChanges (" \t\n ".data)).modified_files = [] := by
  have h := c8_blank_input (" \t\n ".data) (by decide)
  exact ⟨h.1, h.2.2.2.2.2.2.2⟩

/-! ## Lemmas: span filtering (claim C7 machinery) -/

theorem foldl_keepIncluded : ∀ (lines : List Str) (st : ParseState),
    (keepIncludedLines st.shouldInclude lines).foldl parseLine st =
      lines.foldl parseLine st := by
  intro lines
  induction lines with
  | nil => intro st; rfl
  | cons l ls ih =>
    intro st
    rcases h : matchFileHeader l with _ | p
    · by_cases hflag : st.shouldInclude = true
      · have hc := parseLine_content st l h
        have hkeep : keepIncludedLines st.shouldInclude (l :: ls) =
            l :: keepIncludedLines st.shouldInclude ls := by
          simp [keepIncludedLines, h, hflag]
        rw [hkeep, List.foldl_cons, List.foldl_cons]
        have := ih (parseLine st l)
        rw [hc.2.2.1] at this
        exact this
      · simp only [Bool.not_eq_true] at hflag
        have hkeep : keepIncludedLines st.shouldInclude (l :: ls) =
            keepIncludedLines st.shouldInclude ls := by
          simp [keepIncludedLines, h, hflag]
        rw [hkeep, List.foldl_cons, parseLine_skip st l h hflag]
        exact ih st
    · have hh := parseLine_header st l p h
      have hkeep : keepIncludedLines st.shouldInclude (l :: ls) =
          l :: keepIncludedLines (shouldIncludeFile p) ls := by
        simp [keepIncludedLines, h]
      rw [hkeep, List.foldl_cons, List.foldl_cons]
      have := ih (parseLine st l)
      rw [show (parseLine st l).shouldInclude = shouldIncludeFile p from by rw [hh]] at this
      exact this

theorem foldl_modifiedFiles_included : ∀ (lines : List Str) (st : ParseState),
    (∀ p ∈ st.modifiedFiles, shouldIncludeFile p = true) →
    ∀ p ∈ (lines.foldl parseLine st).modifiedFiles, shouldIncludeFile p = true := by
  intro lines
  induction lines with
  | nil => intro st h; exact h
  | cons l ls ih =>
    intro st h
    rcases hm : matchFileHeader l with _ | q
    · have hc := parseLine_content st l hm
      simp only [List.foldl_cons]
      apply ih
      rw [hc.2.2.2.1]
      exact h
    · have hh := parseLine_header st l q hm
      simp only [List.foldl_cons]
      apply ih
      rw [hh]
      by_cases hq : shouldIncludeFile q = true
      · simp only [hq, if_pos rfl]
        intro p hp
        rcases (mem_insertSet_iff p q st.modifiedFiles).mp hp with rfl | hold
        · exact hq
        · exact h p hold
      · simp only [Bool.not_eq_true] at hq
        simp only [hq]
        simpa using h

/-- C7: lines belonging to a file whose header path matches the ignore
filter, as well as lines appearing before any file header, contribute
nothing to the returned change set: parsing only the kept lines (headers
plus included-span lines) yields the same result as parsing everything,
and no ignored path ever appears in `modified_files`. -/
theorem c7_filtered_contribute_nothing (d : Str) :
    parseLinesList (keepIncludedLines false (splitLines d)) = parseDiffSafely d ∧
    ∀ p ∈ (parseDiffSafely d).modified_files, shouldIncludeFile p = true := by
  constructor
  · unfold parseDiffSafely parseLinesList
    congr 1
    have := foldl_keepIncluded (splitLines d) initState
    simpa [initState] using this
  · intro p hp
    unfold parseDiffSafely parseLinesList stateToChanges at hp
    exact foldl_modifiedFiles_included (splitLines d) initState
      (by simp [initState]) p hp

/-- Witness for C7: the kept-lines parse of a diff touching both an
ignored and an included file agrees with the full parse, and the
included path passes the filter. -/
theorem c7_filtered_contribute_nothing_witness :
    parseLinesList (keepIncludedLines false
        (splitLines ("pre\ndiff --git a/x.png b/x.png\n+def h(x):\ndiff --git a/ok.py b/ok.py\n+y".data))) =
      parseDiffSafely ("pre\ndiff --git a/x.png b/x.png\n+def h(x):\ndiff --git a/ok.py b/ok.py\n+y".data) ∧
    shouldIncludeFile ("ok.py".data) = true := by
  refine ⟨(c7_filtered_contribute_nothing _).1, ?_⟩
  exact (c7_filtered_contribute_nothing
    ("pre\ndiff --git a/x.png b/x.png\n+def h(x):\ndiff --git a/ok.py b/ok.py\n+y".data)).2
    ("ok.py".data) (by decide)

/-! ## Claim C1: add/remove promotion -/

theorem plus_prefix_false_of_minus (line : Str)
    (h : ("-".data).isPrefixOf line = true) :
    ("+".data).isPrefixOf line = false := by
  cases line with
  | nil => simp [minus_data_eq, List.isPrefixOf] at h
  | cons c rest =>
    rw [minus_data_eq] at h
    simp only [List.isPrefixOf, List.isPrefixOf_nil_left, Bool.and_true, beq_iff_eq] at h
    subst h
    simp [plus_data_eq, List.isPrefixOf]

/-- C1 counterexample: in the diff
`diff --git a/f.py b/f.py` / `-def a():` / `+def a():` the name `a` is
seen on both a `-` line and a `+` line of the same change set, yet the
final result keeps `a` in both `added_functions` and
`removed_functions` (and not in `modified_functions`), because the `-`
occurrence was encountered first: the classification is
order-dependent. -/
theorem c1_both_sets_counterexample :
    "a".data ∈ (parseStructuralChanges
        ("diff --git a/f.py b/f.py\n-def a():\n+def a():".data)).added_functions ∧
    "a".data ∈ (parseStructuralChanges
        ("diff --git a/f.py b/f.py\n-def a():\n+def a():".data)).removed_functions ∧
    "a".data ∉ (parseStructuralChanges
        ("diff --git a/f.py b/f.py\n-def a():\n+def a():".data)).modified_functions := by
  decide

/-- C1 (amended): the promotion rule is one-directional and
order-dependent.  When a function name is matched on a `-` line while it
is currently in the added set, it is promoted to modified and removed
from both the added and removed sets; a `-` match with the name not in
the added set merely records it as removed; a `+` match records it as
added without ever consulting or changing the removed set (hence a name
whose `-` occurrence precedes its `+` occurrence ends in both sets).
Class names are never promoted: a `-` match inserts into the removed
class set and leaves the added class set untouched. -/
theorem c1_amended_promotion (line : Str) :
    (∀ name added removed modified, firstFunctionMatch line = some name →
      (("-".data).isPrefixOf line = true → name ∈ added →
          name ∈ (funSetsStep line added removed modified).2.2 ∧
          name ∉ (funSetsStep line added removed modified).1 ∧
          name ∉ (funSetsStep line added removed modified).2.1) ∧
      (("-".data).isPrefixOf line = true → name ∉ added →
          name ∈ (funSetsStep line added removed modified).2.1 ∧
          (funSetsStep line added removed modified).1 = added ∧
          (funSetsStep line added removed modified).2.2 = modified) ∧
      (("+".data).isPrefixOf line = true →
          name ∈ (funSetsStep line added removed modified).1 ∧
          (funSetsStep line added removed modified).2.1 = removed ∧
          (funSetsStep line added removed modified).2.2 = modified)) ∧
    (∀ cname ca cr, firstClassMatch line = some cname →
        ("-".data).isPrefixOf line = true →
        cname ∈ (classSetsStep line ca cr).2 ∧
        (classSetsStep line ca cr).1 = ca) := by
  constructor
  · intro name added removed modified hf
    refine ⟨?_, ?_, ?_⟩
    · intro hm hmem
      unfold funSetsStep
      rw [hf, plus_prefix_false_of_minus line hm, hm]
      simp only [Bool.false_eq_true, if_false, if_true, if_pos hmem]
      exact ⟨mem_insertSet_self name modified,
             not_mem_discardSet_self name added,
             not_mem_discardSet_self name (insertSet name removed)⟩
    · intro hm hmem
      unfold funSetsStep
      rw [hf, plus_prefix_false_of_minus line hm, hm]
      simp only [Bool.false_eq_true, if_false, if_true, if_neg hmem]
      exact ⟨mem_insertSet_self name removed, trivial, trivial⟩
    · intro hp
      unfold funSetsStep
      rw [hf, hp]
      simp only [if_true]
      exact ⟨mem_insertSet_self name added, trivial, trivial⟩
  · intro cname ca cr hcf hm
    unfold classSetsStep
    rw [hcf, plus_prefix_false_of_minus line hm, hm]
    simp only [Bool.false_eq_true, if_false, if_true]
    exact ⟨mem_insertSet_self cname cr, trivial⟩

/-- Witness for C1 (amended) at the `-`-marked lines `-def a():` and
`-class B:`. -/
theorem c1_amended_promotion_witness :
    ("a".data ∈ (funSetsStep ("-def a():".data) ["a".data] [] []).2.2 ∧
     "a".data ∉ (funSetsStep ("-def a():".data) ["a".data] [] []).1 ∧
     "a".data ∉ (funSetsStep ("-def a():".data) ["a".data] [] []).2.1) ∧
    ("B".data ∈ (classSetsStep ("-class B:".data) ["B".data] []).2 ∧
     (classSetsStep ("-class B:".data) ["B".data] []).1 = ["B".data]) := by
  constructor
  · exact ((c1_amended_promotion ("-def a():".data)).1 ("a".data)
      ["a".data] [] [] (by decide)).1 (by decide) (by decide)
  · exact (c1_amended_promotion ("-class B:".data)).2 ("B".data)
      ["B".data] [] (by decide) (by decide)

/-! ## Claim C3: regular-commit content extraction -/

theorem regCollect_eq_pipeline : ∀ (lines : List Str) (cf : Option Str),
    regCollect cf lines =
      ((procSpanLines cf lines).filter isPlusLine).map (fun l => l.drop 1) := by
  intro lines
  induction lines with
  | nil => intro cf; rfl
  | cons l ls ih =>
    intro cf
    by_cases hh : ("diff --git".data).isPrefixOf l = true
    · simp only [regCollect, procSpanLines, hh, if_true]
      exact ih _
    · simp only [Bool.not_eq_true] at hh
      by_cases hc : cfIncluded cf = true
      · by_cases hp : isPlusLine l = true
        · simp [regCollect, procSpanLines, hh, hc, hp, ih cf]
        · simp only [Bool.not_eq_true] at hp
          simp [regCollect, procSpanLines, hh, hc, hp, ih cf]
      · simp only [Bool.not_eq_true] at hc
        simp [regCollect, procSpanLines, hh, hc, ih cf]

/-- C3 counterexample: for the regular-commit diff
`diff --git a/f.py b/f.py` / `-old` / `+new`, the non-header lines of
the diff restricted to its (single, included) file are `-old` and
`+new`, but the extracted content consists of the single line `new`: the
`-` line is dropped and the `+` prefix is stripped, so the emitted
content does not reproduce the original lines. -/
theorem c3_counterexample :
    specIncludedLines false
        (splitLines ("diff --git a/f.py b/f.py\n-old\n+new".data)) =
      ["-old".data, "+new".data] ∧
    splitLines (extractRegularCommitContent
        ("diff --git a/f.py b/f.py\n-old\n+new".data)) = ["new".data] ∧
    (["new".data] : List Str) ≠ ["-old".data, "+new".data] := by
  decide

/-- C3 (amended): for every regular-commit diff, the extracted content
consists, in original order, of exactly the `+` lines (excluding `+++`)
of the included files' spans, each with its leading `+` stripped, joined
by newlines; `-` lines and header lines are dropped. -/
theorem c3_amended_regular_extraction (d : Str) :
    extractRegularCommitContent d =
      joinLines (((procSpanLines none (splitLines d)).filter isPlusLine).map
        (fun l => l.drop 1)) := by
  unfold extractRegularCommitContent
  by_cases hd : d = []
  · subst hd
    rfl
  · rw [if_neg hd, regCollect_eq_pipeline]

/-! ## Claims C5 and C10: root-commit content extraction -/

theorem joinLines_flatten_splitLines : ∀ (xs : List Str),
    joinLines ((xs.map splitLines).flatten) = joinLines xs := by
  intro xs
  induction xs with
  | nil => rfl
  | cons t rest ih =>
    cases rest with
    | nil =>
      show joinLines (splitLines t ++ []) = joinLines [t]
      rw [List.append_nil, joinLines_splitLines]
      rfl
    | cons r rs =>
      have h1 : splitLines t ≠ [] := splitOnChar_ne_nil '\n' t
      have h2 : (((r :: rs).map splitLines).flatten : List Str) ≠ [] := by
        simp only [List.map_cons, List.flatten_cons]
        exact List.append_ne_nil_of_left_ne_nil (splitOnChar_ne_nil '\n' r) _
      have hstep : ((t :: r :: rs).map splitLines).flatten =
          splitLines t ++ ((r :: rs).map splitLines).flatten := by
        simp
      rw [hstep, joinLines_append _ _ h1 h2, joinLines_splitLines, ih,
          joinLines_cons_cons]

theorem initialLines_eq (contentAt : Str → Str) : ∀ (files : List Str),
    initialLines contentAt files =
      ((files.filter
          (fun p => shouldIncludeFile p && !(contentAt p).isEmpty)).map
        (fun p => splitLines ((contentAt p).take FILE_SIZE_LIMIT))).flatten := by
  intro files
  induction files with
  | nil => rfl
  | cons f fs ih =>
    simp only [initialLines, List.filter_cons]
    by_cases hf : shouldIncludeFile f = true
    · by_cases hc : contentAt f = []
      · simp [hf, hc, ih]
      · have hne : (!(contentAt f).isEmpty) = true := by
          simp [List.isEmpty_iff, hc]
        simp [hf, hc, hne, ih]
    · simp only [Bool.not_eq_true] at hf
      simp [hf, ih]

/-- Shared characterisation of root-commit extraction: the content is
the newline-join of the independently truncated contents of the changed
files that pass the ignore filter and have non-empty content. -/
theorem extractInitial_eq (files : List Str) (contentAt : Str → Str) :
    extractInitialCommitContent files contentAt =
      joinLines ((files.filter
          (fun p => shouldIncludeFile p && !(contentAt p).isEmpty)).map
        (fun p => (contentAt p).take FILE_SIZE_LIMIT)) := by
  unfold extractInitialCommitContent
  rw [initialLines_eq]
  rw [show ((files.filter
        (fun p => shouldIncludeFile p && !(contentAt p).isEmpty)).map
      (fun p => splitLines ((contentAt p).take FILE_SIZE_LIMIT))) =
      (((files.filter
        (fun p => shouldIncludeFile p && !(contentAt p).isEmpty)).map
      (fun p => (contentAt p).take FILE_SIZE_LIMIT)).map splitLines) from by
    rw [List.map_map]
    rfl]
  exact joinLines_flatten_splitLines _

/-- C5 counterexample: for a root commit whose only changed file is
`x.png` with non-empty content `data`, the extracted content is empty —
not the newline-concatenation of every changed file's truncated content
(which would be `data`): extraction silently skips ignore-filtered
files. -/
theorem c5_counterexample :
    extractInitialCommitContent ["x.png".data] (fun _ => "data".data) = [] ∧
    joinLines ((["x.png".data]).map
        (fun _ => ("data".data).take FILE_SIZE_LIMIT)) = "data".data ∧
    ("data".data : Str) ≠ [] := by
  refine ⟨by decide, ?_, by decide⟩
  show joinLines [("data".data).take FILE_SIZE_LIMIT] = "data".data
  decide

/-- C5 (amended): for every root commit, extraction truncates each
changed file's content independently to `FILE_SIZE_LIMIT = 10000`
characters and concatenates, with newline separators, the truncated
contents of exactly those changed files that pass the ignore filter and
have non-empty content; in particular, for a root commit whose only
file is `a.txt` containing `"hello\n"`, the extracted content equals
`"hello\n"`. -/
theorem c5_amended_initial_extraction :
    (∀ (files : List Str) (contentAt : Str → Str),
        extractInitialCommitContent files contentAt =
          joinLines ((files.filter
              (fun p => shouldIncludeFile p && !(contentAt p).isEmpty)).map
            (fun p => (contentAt p).take FILE_SIZE_LIMIT))) ∧
    extractInitialCommitContent ["a.txt".data]
        (fun p => if p = "a.txt".data then "hello\n".data else []) =
      "hello\n".data := by
  refine ⟨extractInitial_eq, ?_⟩
  decide

/-- C10: during root-commit extraction, a changed file whose
content-at-commit is the empty string contributes nothing to the
concatenated result — deleting it from the changed-file list leaves the
extracted content unchanged. -/
theorem c10_empty_content_skipped (contentAt : Str → Str)
    (xs ys : List Str) (p : Str) (h : contentAt p = []) :
    extractInitialCommitContent (xs ++ p :: ys) contentAt =
      extractInitialCommitContent (xs ++ ys) contentAt := by
  unfold extractInitialCommitContent
  congr 1
  induction xs with
  | nil =>
    simp only [List.nil_append, initialLines, h]
    by_cases hp : shouldIncludeFile p = true
    · simp [hp]
    · simp only [Bool.not_eq_true] at hp
      simp [hp]
  | cons x xs' ih =>
    simp only [List.cons_append, initialLines]
    by_cases hx : shouldIncludeFile x = true
    · by_cases hcx : contentAt x = []
      · simp [hx, hcx, ih]
      · simp [hx, hcx, ih]
    · simp only [Bool.not_eq_true] at hx
      simp [hx, ih]

/-- Witness for C10: dropping the empty-content file `b.txt` from a
two-file root commit leaves the extracted content unchanged. -/
theorem c10_empty_content_skipped_witness :
    extractInitialCommitContent ["a.txt".data, "b.txt".data]
        (fun q => if q = "a.txt".data then "hi".data else []) =
      extractInitialCommitContent ["a.txt".data]
        (fun q => if q = "a.txt".data then "hi".data else []) := by
  exact c10_empty_content_skipped
    (fun q => if q = "a.txt".data then "hi".data else [])
    ["a.txt".data] [] ("b.txt".data) (by decide)

/-! ## Claim C6: commit extraction drops blanks and isolates failures -/

theorem extractCommits_nonblank (ex : Str → Except Unit Str) :
    ∀ (l : List CommitInfo) (cd : CommitData),
      cd ∈ extractCommits ex l → pyStrip cd.content ≠ [] := by
  intro l
  induction l with
  | nil => intro cd h; simp [extractCommits] at h
  | cons ci rest ih =>
    intro cd h
    simp only [extractCommits] at h
    by_cases hb : pyStrip (extractCommitContent ex ci.hash) = []
    · rw [if_pos hb] at h
      exact ih cd h
    · rw [if_neg hb] at h
      rcases List.mem_cons.mp h with rfl | h'
      · exact hb
      · exact ih cd h'

theorem extractCommits_append_blank (ex : Str → Except Unit Str)
    (ci : CommitInfo) (h : pyStrip (extractCommitContent ex ci.hash) = []) :
    ∀ (xs ys : List CommitInfo),
      extractCommits ex (xs ++ ci :: ys) = extractCommits ex (xs ++ ys)
  | [], ys => by
    simp [extractCommits, h]
  | x :: xs', ys => by
    have ih := extractCommits_append_blank ex ci h xs' ys
    simp only [List.cons_append, extractCommits, List.append_eq, ih]

/-- C6: a commit whose extracted content is empty or whitespace-only is
dropped entirely (deleting it from the listing changes nothing), a
commit whose extraction raises is caught, treated as empty content, and
likewise dropped without affecting the extraction of the other commits,
and every returned record has non-blank content. -/
theorem c6_blank_and_failure_isolation (ex : Str → Except Unit Str)
    (xs ys : List CommitInfo) (ci : CommitInfo) :
    (pyStrip (extractCommitContent ex ci.hash) = [] →
        extractCommits ex (xs ++ ci :: ys) = extractCommits ex (xs ++ ys)) ∧
    (∀ err : Unit, ex ci.hash = .error err →
        extractCommits ex (xs ++ ci :: ys) = extractCommits ex (xs ++ ys)) ∧
    (∀ cd ∈ extractCommits ex (xs ++ ci :: ys), pyStrip cd.content ≠ []) := by
  refine ⟨fun h => extractCommits_append_blank ex ci h xs ys, ?_, ?_⟩
  · intro err herr
    apply extractCommits_append_blank ex ci
    unfold extractCommitContent
    rw [herr]
    rfl
  · exact fun cd h => extractCommits_nonblank ex _ cd h

/-- Witness for C6: a failing commit `bad` between two good commits is
dropped while both good commits survive. -/
theorem c6_blank_and_failure_isolation_witness :
    extractCommits
        (fun h => if h = "bad".data then .error () else .ok ("x".data))
        ([⟨"g1".data, "s".data, "a".data, "d".data⟩] ++
          ⟨"bad".data, "s".data, "a".data, "d".data⟩ ::
          [⟨"g2".data, "s".data, "a".data, "d".data⟩]) =
      extractCommits
        (fun h => if h = "bad".data then .error () else .ok ("x".data))
        ([⟨"g1".data, "s".data, "a".data, "d".data⟩] ++
          [⟨"g2".data, "s".data, "a".data, "d".data⟩]) ∧
    pyStrip (CommitData.content ⟨"g1".data, "s".data, "a".data, "d".data,
        "x".data⟩) ≠ [] := by
  constructor
  · exact (c6_blank_and_failure_isolation
      (fun h => if h = "bad".data then .error () else .ok ("x".data))
      [⟨"g1".data, "s".data, "a".data, "d".data⟩]
      [⟨"g2".data, "s".data, "a".data, "d".data⟩]
      ⟨"bad".data, "s".data, "a".data, "d".data⟩).2.1 () rfl
  · exact (c6_blank_and_failure_isolation
      (fun h => if h = "bad".data then .error () else .ok ("x".data))
      [] [⟨"g2".data, "s".data, "a".data, "d".data⟩]
      ⟨"g1".data, "s".data, "a".data, "d".data⟩).2.2
      ⟨"g1".data, "s".data, "a".data, "d".data, "x".data⟩ (by decide)

/-! ## Claim C9: commit-listing robustness -/

theorem dropWhile_head_false {p : Char → Bool} :
    ∀ (s : Str) (c : Char) (tail : Str), s.dropWhile p = c :: tail → p c = false := by
  intro s
  induction s with
  | nil => intro c tail h; simp at h
  | cons a s' ih =>
    intro c tail h
    rw [List.dropWhile_cons] at h
    split at h
    · exact ih c tail h
    · rename_i hpa
      injection h with h1 h2
      subst h1
      simpa using hpa

theorem count_takeWhile_ne_zero (sep : Char) (s : Str) :
    (s.takeWhile (fun c => c ≠ sep)).count sep = 0 := by
  rw [List.count_eq_zero]
  intro hmem
  have := List.mem_takeWhile_imp hmem
  simp at this

theorem splitOnCharLimit_length (sep : Char) : ∀ (n : Nat) (s : Str),
    (splitOnCharLimit sep n s).length = min (s.count sep) n + 1 := by
  intro n
  induction n with
  | zero => intro s; simp [splitOnCharLimit]
  | succ n ih =>
    intro s
    simp only [splitOnCharLimit]
    rcases hdrop : s.dropWhile (fun c => c ≠ sep) with _ | ⟨c, tail⟩
    · have hzero : s.count sep = 0 := by
        rw [List.count_eq_zero]
        intro hmem
        have hall := List.dropWhile_eq_nil_iff.mp hdrop
        have := hall sep hmem
        simp at this
      simp [hzero]
    · have hc : c = sep := by
        have := dropWhile_head_false s c tail hdrop
        simpa using this
      subst hc
      have hcount : s.count c = tail.count c + 1 := by
        conv_lhs => rw [← List.takeWhile_append_dropWhile
          (p := fun x => x ≠ c) (l := s)]
        rw [List.count_append, hdrop, count_takeWhile_ne_zero]
        simp
      simp only [List.length_cons, ih tail, hcount, Nat.succ_min_succ]

theorem parseCommitLine_isSome_iff (line : Str) :
    (parseCommitLine line).isSome = true ↔ 4 ≤ line.count '\x1F' := by
  unfold parseCommitLine
  by_cases hnil : line = []
  · subst hnil
    simp
  · rw [if_neg hnil]
    have hlen := splitOnCharLimit_length '\x1F' 4 line
    rcases hparts : splitOnCharLimit '\x1F' 4 line with
      _ | ⟨a, _ | ⟨b, _ | ⟨c, _ | ⟨d, _ | ⟨e, rest⟩⟩⟩⟩⟩ <;>
      rw [hparts] at hlen <;> simp only [List.length_cons, List.length_nil] at hlen
    · omega
    · constructor
      · intro h; simp at h
      · intro h; omega
    · constructor
      · intro h; simp at h
      · intro h; omega
    · constructor
      · intro h; simp at h
      · intro h; omega
    · constructor
      · intro h; simp at h
      · intro h; omega
    · cases rest with
      | nil =>
        constructor
        · intro _; omega
        · intro _; simp
      | cons f rest' =>
        simp only [List.length_cons] at hlen
        omega

/-- C9 counterexample: the log line `h␟s␟n␟e␟d␟x` has six 0x1F-separated
fields (five separators, not four), yet `get_commits` still produces a
record from it — `split(maxsplit=4)` absorbs everything after the fourth
separator, the extra separator included, into the date field. -/
theorem c9_counterexample :
    ("h\x1Fs\x1Fn\x1Fe\x1Fd\x1Fx".data).count '\x1F' = 5 ∧
    getCommitsFromOutput ("h\x1Fs\x1Fn\x1Fe\x1Fd\x1Fx".data) =
      [⟨"h".data, "s".data, "n <e>".data, "d\x1Fx".data⟩] := by
  decide

/-- C9 (amended): commit listing parses a record from an output line iff
the line has at least five 0x1F-separated fields (at least four
separators) — the first four become hash, summary, author name and
author email (composed as `name <email>`), and everything after the
fourth separator becomes the date; lines with fewer fields produce no
record; a backend `CalledProcessError` yields the empty list rather than
an exception, while a missing `git` binary (`FileNotFoundError`)
propagates; and every returned record comes from some line of the
stripped output. -/
theorem c9_amended_commit_listing :
    (∀ line : Str, (parseCommitLine line).isSome = true ↔
        4 ≤ line.count '\x1F') ∧
    getCommits (.error .calledProcessError) = .ok [] ∧
    getCommits (.error .fileNotFound) = .error .fileNotFound ∧
    (∀ (out : Str) (r : CommitInfo), r ∈ getCommitsFromOutput out →
        ∃ line ∈ splitLines (pyStrip out), parseCommitLine line = some r) := by
  refine ⟨parseCommitLine_isSome_iff, rfl, rfl, ?_⟩
  intro out r hr
  unfold getCommitsFromOutput at hr
  obtain ⟨line, hline, hparse⟩ := List.mem_filterMap.mp hr
  exact ⟨line, hline, hparse⟩

/-- Witness for C9 (amended): a five-field line parses, a two-field line
does not, and the record parsed from a concrete output traces back to
its line. -/
theorem c9_amended_commit_listing_witness :
    (parseCommitLine ("a\x1Fb\x1Fc\x1Fd\x1Fe".data)).isSome = true ∧
    parseCommitLine ("a\x1Fb".data) = none ∧
    (∃ line ∈ splitLines (pyStrip ("a\x1Fb\x1Fc\x1Fd\x1Fe".data)),
        parseCommitLine line =
          some ⟨"a".data, "b".data, "c <d>".data, "e".data⟩) := by
  refine ⟨(c9_amended_commit_listing.1 _).mpr (by decide), ?_, ?_⟩
  · have h := c9_amended_commit_listing.1 ("a\x1Fb".data)
    have hn : ¬(parseCommitLine ("a\x1Fb".data)).isSome = true := by
      rw [h]; decide
    exact Option.not_isSome_iff_eq_none.mp hn
  · exact c9_amended_commit_listing.2.2.2 ("a\x1Fb\x1Fc\x1Fd\x1Fe".data)
      ⟨"a".data, "b".data, "c <d>".data, "e".data⟩ (by decide)

/-! ## Claim C4: the degraded fallback pass -/

theorem scanBSep_clean : ∀ (A B : Str),
    (∀ c ∈ A, isPySpace c = false) → B ≠ [] →
    scanBSep (A ++ ' ' :: 'b' :: '/' :: B) = some B := by
  intro A
  induction A with
  | nil =>
    intro B hA hB
    simp only [List.nil_append, scanBSep]
    rw [if_pos (by simp [List.isPrefixOf])]
    simp [hB]
  | cons a A' ih =>
    intro B hA hB
    have ha : isPySpace a = false := hA a (by simp)
    have hane : a ≠ ' ' := by
      intro hEq
      rw [hEq] at ha
      simp [isPySpace] at ha
    simp only [List.cons_append, scanBSep]
    rw [if_neg (by simp [List.isPrefixOf, hane, Ne.symm hane])]
    exact ih B (fun c hc => hA c (by simp [hc])) hB

theorem pySplitWsAux_nonspace : ∀ (w acc rest : Str),
    (∀ c ∈ w, isPySpace c = false) →
    pySplitWsAux acc (w ++ rest) = pySplitWsAux (w.reverse ++ acc) rest := by
  intro w
  induction w with
  | nil => intro acc rest _; simp
  | cons c w' ih =>
    intro acc rest h
    have hc : isPySpace c = false := h c (by simp)
    rw [show pySplitWsAux acc ((c :: w') ++ rest) =
          pySplitWsAux (c :: acc) (w' ++ rest) from by
      simp [pySplitWsAux, hc]]
    rw [ih (c :: acc) rest (fun x hx => h x (by simp [hx]))]
    simp

theorem pySplitWs_word_sep (w rest : Str) (hw : w ≠ [])
    (hns : ∀ c ∈ w, isPySpace c = false) :
    pySplitWs (w ++ ' ' :: rest) = w :: pySplitWs rest := by
  unfold pySplitWs
  rw [pySplitWsAux_nonspace w [] (' ' :: rest) hns]
  simp only [List.append_nil, pySplitWsAux]
  rw [show isPySpace ' ' = true from rfl, if_pos rfl,
      if_neg (by simp [hw])]
  simp

theorem pySplitWs_word_end (w : Str) (hw : w ≠ [])
    (hns : ∀ c ∈ w, isPySpace c = false) :
    pySplitWs w = [w] := by
  have haux := pySplitWsAux_nonspace w [] [] hns
  rw [List.append_nil] at haux
  unfold pySplitWs
  rw [haux]
  simp only [List.append_nil, pySplitWsAux]
  rw [if_neg (by simp [hw])]
  simp

theorem cleanHeader_spec (l : Str) (h : cleanHeader l = true) :
    ∃ P : Str, P ≠ [] ∧ (∀ c ∈ P, isPySpace c = false) ∧
      matchFileHeader l = some P ∧ fallbackHeaderPath l = some P := by
  unfold cleanHeader at h
  rcases hlit : litThen ("diff --git a/".data) l with _ | rest
  · rw [hlit] at h; simp at h
  · rw [hlit] at h
    simp only [Bool.and_eq_true, decide_eq_true_eq] at h
    obtain ⟨hPne, hrest⟩ := h
    obtain ⟨P, hPdef⟩ : ∃ P, rest.takeWhile (fun c => !isPySpace c) = P := ⟨_, rfl⟩
    rw [hPdef] at hPne hrest
    have hPfree : ∀ c ∈ P, isPySpace c = false := by
      intro c hc
      rw [← hPdef] at hc
      have := List.mem_takeWhile_imp hc
      simpa using this
    have hl : l = ("diff --git a/".data) ++ rest := by
      unfold litThen at hlit
      split at hlit
      · rename_i hpre
        obtain ⟨t, ht⟩ := (isPrefixOf_true_iff _ _).mp hpre
        injection hlit with h1
        have hteq : rest = t := by
          rw [← h1, ← ht]
          exact List.drop_left _ _
        rw [hteq, ← ht]
      · exact absurd hlit (by simp)
    refine ⟨P, hPne, hPfree, ?_, ?_⟩
    · unfold matchFileHeader
      rw [hlit]
      rcases hPcons : P with _ | ⟨c, P'⟩
      · exact absurd hPcons hPne
      · rw [hrest, hPcons]
        simp only [List.cons_append]
        show scanBSep (P' ++ ' ' :: 'b' :: '/' :: (c :: P')) = some (c :: P')
        refine scanBSep_clean P' (c :: P') ?_ (by simp)
        intro x hx
        apply hPfree
        rw [hPcons]
        simp [hx]
    · have hsplit : pySplitWs l = ["diff".data, "--git".data,
          'a' :: '/' :: P, 'b' :: '/' :: P] := by
        have e1 : ("diff --git a/".data) =
            'd' :: 'i' :: 'f' :: 'f' :: ' ' :: '-' :: '-' :: 'g' :: 'i' ::
            't' :: ' ' :: 'a' :: '/' :: ([] : Str) := rfl
        have e2 : ("diff".data) = 'd' :: 'i' :: 'f' :: 'f' :: ([] : Str) := rfl
        have e3 : ("--git".data) = '-' :: '-' :: 'g' :: 'i' :: 't' :: ([] : Str) := rfl
        have hfreeA : ∀ x ∈ 'a' :: '/' :: P, isPySpace x = false := by
          intro x hx
          rcases List.mem_cons.mp hx with rfl | hx'
          · rfl
          · rcases List.mem_cons.mp hx' with rfl | hx''
            · rfl
            · exact hPfree x hx''
        have hfreeB : ∀ x ∈ 'b' :: '/' :: P, isPySpace x = false := by
          intro x hx
          rcases List.mem_cons.mp hx with rfl | hx'
          · rfl
          · rcases List.mem_cons.mp hx' with rfl | hx''
            · rfl
            · exact hPfree x hx''
        have hform : l = ("diff".data) ++ ' ' :: (("--git".data) ++ ' ' ::
            (('a' :: '/' :: P) ++ ' ' :: ('b' :: '/' :: P))) := by
          rw [hl, hrest, e1, e2, e3]
          simp [List.cons_append]
        rw [hform]
        rw [pySplitWs_word_sep ("diff".data) _ (by decide) (by decide)]
        rw [pySplitWs_word_sep ("--git".data) _ (by decide) (by decide)]
        rw [pySplitWs_word_sep ('a' :: '/' :: P) _ (by simp) hfreeA]
        rw [pySplitWs_word_end ('b' :: '/' :: P) (by simp) hfreeB]
      unfold fallbackHeaderPath
      rw [hsplit]
      rw [if_pos (by simp)]
      show some (removeFirstOcc ("b/".data) ('b' :: '/' :: P)) = _
      unfold removeFirstOcc
      rw [if_pos (by simp [List.isPrefixOf])]
      rfl

theorem fallbackStep_content (st : FallbackState) (line : Str)
    (h : ("diff --git".data).isPrefixOf line = false) :
    (fallbackStep st line).linesAdded = st.linesAdded +
        (if st.shouldInclude && isPlusLine line then 1 else 0) ∧
    (fallbackStep st line).linesRemoved = st.linesRemoved +
        (if st.shouldInclude && (!isPlusLine line && isMinusLine line)
         then 1 else 0) ∧
    (fallbackStep st line).shouldInclude = st.shouldInclude ∧
    (fallbackStep st line).modifiedFiles = st.modifiedFiles := by
  unfold fallbackStep
  rw [if_neg (by simp [h])]
  by_cases hf : st.shouldInclude = true
  · simp only [hf, if_pos rfl, Bool.true_and]
    refine ⟨rfl, ?_, rfl, rfl⟩
    by_cases hp : isPlusLine line = true
    · simp [hp]
    · simp only [Bool.not_eq_true] at hp
      simp [hp]
  · simp only [Bool.not_eq_true] at hf
    simp [hf]

theorem fallbackStep_header (st : FallbackState) (line P : Str)
    (hgit : ("diff --git".data).isPrefixOf line = true)
    (hfbp : fallbackHeaderPath line = some P) :
    fallbackStep st line =
      { st with currentFile := some P
              , shouldInclude := shouldIncludeFile P
              , modifiedFiles := if shouldIncludeFile P
                  then insertSet P st.modifiedFiles else st.modifiedFiles } := by
  unfold fallbackStep
  rw [if_pos hgit, hfbp]

theorem c4_agree_aux : ∀ (lines : List Str) (stP : ParseState) (stF : FallbackState),
    (∀ l ∈ lines, ("diff --git".data).isPrefixOf l = true → cleanHeader l = true) →
    stP.shouldInclude = stF.shouldInclude →
    stP.modifiedFiles = stF.modifiedFiles →
    stP.linesAdded = stF.linesAdded →
    stP.linesRemoved = stF.linesRemoved →
    (lines.foldl parseLine stP).modifiedFiles =
        (lines.foldl fallbackStep stF).modifiedFiles ∧
    (lines.foldl parseLine stP).linesAdded =
        (lines.foldl fallbackStep stF).linesAdded ∧
    (lines.foldl parseLine stP).linesRemoved =
        (lines.foldl fallbackStep stF).linesRemoved := by
  intro lines
  induction lines with
  | nil => intro stP stF _ _ h2 h3 h4; exact ⟨h2, h3, h4⟩
  | cons l ls ih =>
    intro stP stF hclean hinc hfiles hla hlr
    simp only [List.foldl_cons]
    by_cases hgit : ("diff --git".data).isPrefixOf l = true
    · obtain ⟨P, hPne, hPfree, hmfh, hfbp⟩ :=
        cleanHeader_spec l (hclean l (by simp) hgit)
      have hP := parseLine_header stP l P hmfh
      have hF := fallbackStep_header stF l P hgit hfbp
      apply ih
      · exact fun l' hl' => hclean l' (by simp [hl'])
      · rw [hP, hF]
      · rw [hP, hF]
        simp only
        rw [hfiles]
      · rw [hP, hF]
        exact hla
      · rw [hP, hF]
        exact hlr
    · simp only [Bool.not_eq_true] at hgit
      have hmfh := matchFileHeader_none_of_not_git l hgit
      have hcP := parseLine_content stP l hmfh
      have hcF := fallbackStep_content stF l hgit
      apply ih
      · exact fun l' hl' => hclean l' (by simp [hl'])
      · rw [hcP.2.2.1, hcF.2.2.1]
        exact hinc
      · rw [hcP.2.2.2.1, hcF.2.2.2]
        exact hfiles
      · rw [hcP.1, hcF.1, hla, hinc]
      · rw [hcP.2.1, hcF.2.1, hlr, hinc]

/-- C4 counterexample: for the diff
`diff --git a/my file.py b/my file.py` / `+x` — a header whose paths
contain a space — the full structural pass records the file
`my file.py` while the degraded fallback pass records `file.py` (its
whitespace-split header rule takes the fourth token): the two passes do
not agree on `modified_files` for every input, contrary to the claim. -/
theorem c4_counterexample :
    "my file.py".data ∈ (parseDiffSafely
        ("diff --git a/my file.py b/my file.py\n+x".data)).modified_files ∧
    "my file.py".data ∉ (fallbackParse
        ("diff --git a/my file.py b/my file.py\n+x".data)).modified_files ∧
    "file.py".data ∈ (fallbackParse
        ("diff --git a/my file.py b/my file.py\n+x".data)).modified_files := by
  decide

/-- C4 (amended): the fallback pass always returns empty name sets, and
it recomputes `modified_files`, `lines_added` and `lines_removed` with
the same line-prefix rules as the full pass but with its own
whitespace-split header rule; on every diff whose `diff --git` lines are
clean headers of the form `diff --git a/P b/P` with `P` non-empty and
whitespace-free, the two rules coincide, so the degraded pass and the
full pass agree on all three components. -/
theorem c4_amended_fallback (d : Str) (h : cleanHeadersOnly d = true) :
    (fallbackParse d).added_functions = [] ∧
    (fallbackParse d).removed_functions = [] ∧
    (fallbackParse d).modified_functions = [] ∧
    (fallbackParse d).added_classes = [] ∧
    (fallbackParse d).removed_classes = [] ∧
    (fallbackParse d).modified_files = (parseDiffSafely d).modified_files ∧
    (fallbackParse d).lines_added = (parseDiffSafely d).lines_added ∧
    (fallbackParse d).lines_removed = (parseDiffSafely d).lines_removed := by
  have hclean : ∀ l ∈ splitLines d,
      ("diff --git".data).isPrefixOf l = true → cleanHeader l = true := by
    unfold cleanHeadersOnly at h
    intro l hl hgit
    have := List.all_eq_true.mp h l hl
    simpa [hgit] using this
  have hagree := c4_agree_aux (splitLines d) initState
    ⟨[], 0, 0, none, false⟩ hclean rfl rfl rfl rfl
  unfold fallbackParse parseDiffSafely parseLinesList stateToChanges
  exact ⟨rfl, rfl, rfl, rfl, rfl, hagree.1.symm, hagree.2.1.symm, hagree.2.2.symm⟩

/-- Witness for C4 (amended) on a clean two-file diff. -/
theorem c4_amended_fallback_witness :
    (fallbackParse ("diff --git a/ok.py b/ok.py\n+x\n-y".data)).added_functions
      = [] ∧
    (fallbackParse ("diff --git a/ok.py b/ok.py\n+x\n-y".data)).modified_files
      = (parseDiffSafely ("diff --git a/ok.py b/ok.py\n+x\n-y".data)).modified_files ∧
    (fallbackParse ("diff --git a/ok.py b/ok.py\n+x\n-y".data)).lines_added
      = (parseDiffSafely ("diff --git a/ok.py b/ok.py\n+x\n-y".data)).lines_added ∧
    (fallbackParse ("diff --git a/ok.py b/ok.py\n+x\n-y".data)).lines_removed
      = (parseDiffSafely ("diff --git a/ok.py b/ok.py\n+x\n-y".data)).lines_removed := by
  have h := c4_amended_fallback ("diff --git a/ok.py b/ok.py\n+x\n-y".data)
    (by decide)
  exact ⟨h.1, h.2.2.2.2.2.1, h.2.2.2.2.2.2.1, h.2.2.2.2.2.2.2⟩
